import Mathlib

/-!
Verification of the timeline / engagement cache engine of the `pod` service
(`src/pod/settings/my_redis.py`) and of its realtime connection layer
(`src/pod/settings/my_websocket.py`).

The Redis store is embedded shallowly as a record of total functions:

* `sets k i suf`   models the Redis set stored at key `"{k}:{i}:{suf}"`
  (for `k` one of the literal prefixes `feeds`, `comments`, `users`);
  these keys carry the engagement membership sets `feeds:{id}:{likes,...}`,
  the comment adjacency sets `feeds:{id}:comments` / `comments:{id}:comments`,
  the per-user reverse indices `users:{uid}:{likes,...}`, the per-user comment
  index `users:{uid}:comments` and the follow sets `users:{uid}:followers`.
  Note the source deliberately lets several of these coincide (for instance
  `users:{uid}:comments` is both the comment index and the target of the
  `comments` suffix in the cascade delete); using one function for all
  `{k}:{i}:{suf}` keys preserves those coincidences exactly.
* `zsets`  models the three ranking sorted sets (`global_timeline`,
  `users:{uid}:following_timeline`, `users:{uid}:user_timeline`) as finite
  sets of (member, score) pairs.
* `strs i f` models the plain string keys `comments:{id}:author_id` and
  `comments:{id}:parent_id` (`f` is the final field name).
* `hashes` models the hashes `feeds:{id}:meta` and `users:{uid}:profile`
  as association lists, empty list = absent key (Redis `HGETALL` of a
  missing key gives an empty dict, and `EXISTS` is modelled by nonemptiness).

Scores written by `create_feed` are rationals (see `calculateScore_zero`:
with all counters zero the score is exactly `created_at`), so the sorted-set
component uses `ℚ` scores; the full ranking formula `_calculate_score` is
embedded over `ℝ` because of `math.log`.
-/

namespace Kronk

/-- Key prefixes of the set-valued Redis keys `"{kind}:{id}:{suffix}"`. -/
inductive Kind where
  | feeds
  | comments
  | users
deriving DecidableEq, Repr

/-- Sorted-set keys: `global_timeline`, `users:{u}:following_timeline`,
`users:{u}:user_timeline`. -/
inductive ZKey where
  | global
  | following (u : String)
  | userTl (u : String)
deriving DecidableEq, Repr

/-- Hash keys: `feeds:{id}:meta` and `users:{u}:profile`. -/
inductive HKey where
  | feedMeta (id : String)
  | profile (u : String)
deriving DecidableEq, Repr

/-- Shallow model of the Redis database, split by value type (the source never
uses one key with two Redis types, so the split is faithful). -/
@[ext]
structure Store where
  sets : Kind → String → String → Finset String
  zsets : ZKey → Finset (String × ℚ)
  strs : String → String → Option String
  hashes : HKey → List (String × String)

/-- Store with every key absent. -/
def Store.empty : Store where
  sets := fun _ _ _ => ∅
  zsets := fun _ => ∅
  strs := fun _ _ => none
  hashes := fun _ => []

/-- Pointwise update of one set key. -/
def Store.updSet (s : Store) (k : Kind) (i suf : String)
    (f : Finset String → Finset String) : Store :=
  { s with
    sets := fun k' i' suf' =>
      if k' = k ∧ i' = i ∧ suf' = suf then f (s.sets k' i' suf') else s.sets k' i' suf' }

/-- Redis `SADD key m` (single member). -/
def Store.sadd (s : Store) (k : Kind) (i suf m : String) : Store :=
  s.updSet k i suf (insert m)

/-- Redis `SREM key m` (single member). -/
def Store.srem (s : Store) (k : Kind) (i suf m : String) : Store :=
  s.updSet k i suf (fun t => t.erase m)

/-- Redis `DEL` of a set key. -/
def Store.delSet (s : Store) (k : Kind) (i suf : String) : Store :=
  s.updSet k i suf (fun _ => ∅)

/-- Redis `SET comments:{i}:{f} v` for the two string pointer keys. -/
def Store.setStr (s : Store) (i f v : String) : Store :=
  { s with strs := fun i' f' => if i' = i ∧ f' = f then some v else s.strs i' f' }

/-- Redis `DEL` of a string pointer key. -/
def Store.delStr (s : Store) (i f : String) : Store :=
  { s with strs := fun i' f' => if i' = i ∧ f' = f then none else s.strs i' f' }

/-- Redis `ZREM key m`: drops every pair whose member is `m`. -/
def Store.zrem (s : Store) (zk : ZKey) (m : String) : Store :=
  { s with zsets := fun zk' =>
      if zk' = zk then (s.zsets zk').filter (fun p => p.1 ≠ m) else s.zsets zk' }

/-- Redis `DEL` of a hash key. -/
def Store.delHash (s : Store) (hk : HKey) : Store :=
  { s with hashes := fun hk' => if hk' = hk then [] else s.hashes hk' }

/-- Association-list field lookup, the model of reading one hash field. -/
def hfind : List (String × String) → String → Option String
  | [], _ => none
  | p :: rest, k => if p.1 = k then some p.2 else hfind rest k

/-- Redis `HINCRBY` on a profile counter: the stored decimal string is parsed
(`0` when absent or unparsable, matching Redis on an absent field) and the
incremented value is stored back. -/
def Store.hincrby (s : Store) (hk : HKey) (fld : String) (amount : Int) : Store :=
  let old : Int := ((hfind (s.hashes hk) fld).bind String.toInt?).getD 0
  { s with hashes := fun hk' =>
      if hk' = hk then
        (fld, toString (old + amount)) :: (s.hashes hk).filter (fun p => p.1 ≠ fld)
      else s.hashes hk' }

/-- Python `f"...{x}..."` interpolation of an `Optional[str]`: `None` prints
as the literal string `None`. -/
def optToStr : Option String → String
  | none => "None"
  | some s => s

/-- Engagement types of `utility/my_enums.py` (`EngagementType`): note the
enum has no `comments` member; comment counts come from the adjacency set. -/
inductive EngType where
  | reposts
  | quotes
  | likes
  | views
  | bookmarks
deriving DecidableEq, Repr

/-- String value of an `EngagementType` member (AutoName: value = name). -/
def EngType.val : EngType → String
  | .reposts => "reposts"
  | .quotes => "quotes"
  | .likes => "likes"
  | .views => "views"
  | .bookmarks => "bookmarks"

/-- Suffix list used by `_get_feeds`, `get_engagement` and `delete_feed`. -/
def engSuffixes : List String :=
  ["comments", "reposts", "quotes", "likes", "views", "bookmarks"]

/-- Interaction flag names of `_get_feeds` / `get_engagement`. -/
def interactionKeys : List String :=
  ["reposted", "quoted", "liked", "viewed", "bookmarked"]

/-- Embedding of `_engagement_keys`: the membership set key and the per-user
reverse index key, as (kind, id, suffix) triples. -/
def engagementKeyPair (feedId userId : String) (t : EngType) (isComment : Bool) :
    (Kind × String × String) × (Kind × String × String) :=
  let pfx : Kind := if isComment then .comments else .feeds
  ((pfx, feedId, t.val), (.users, userId, t.val))

/-- Engagement snapshot returned by `get_engagement`: the positive counters
(in the fixed key order of the source) and the interaction flags that are
true, i.e. exactly the content of the sparse Python dict. -/
structure Snapshot where
  counts : List (String × ℕ)
  flags : List String
deriving DecidableEq, Repr

/-- Embedding of `CacheManager.get_engagement`: one pipelined batch of
`SCARD {prefix}:{feed_id}:{key}` over the six suffixes and
`SISMEMBER {prefix}:{feed_id}:{key} user_id` over the last five, then the
sparse dict of positive counters and true flags. -/
def getEngagement (s : Store) (userId feedId : String) (isComment : Bool) : Snapshot :=
  let pfx : Kind := if isComment then .comments else .feeds
  let counts := engSuffixes.map (fun k => (k, (s.sets pfx feedId k).card))
  let flags := (engSuffixes.tail.zip interactionKeys).filterMap
    (fun p => if userId ∈ s.sets pfx feedId p.1 then some p.2 else none)
  { counts := counts.filter (fun p => 0 < p.2), flags := flags }

/-- State change of `CacheManager.set_engagement`: `SADD` into the membership
set and `SADD` into the symmetric per-user reverse index (one pipeline). -/
def setEngagementState (s : Store) (userId feedId : String) (t : EngType)
    (isComment : Bool) : Store :=
  let keys := engagementKeyPair feedId userId t isComment
  (s.sadd keys.1.1 keys.1.2.1 keys.1.2.2 userId).sadd keys.2.1 keys.2.2.1 keys.2.2.2 feedId

/-- State change of `CacheManager.remove_engagement`: the two symmetric
`SREM`s. -/
def removeEngagementState (s : Store) (userId feedId : String) (t : EngType)
    (isComment : Bool) : Store :=
  let keys := engagementKeyPair feedId userId t isComment
  (s.srem keys.1.1 keys.1.2.1 keys.1.2.2 userId).srem keys.2.1 keys.2.2.1 keys.2.2.2 feedId

/-- Embedding of `CacheManager.set_engagement` including its return value.
The source returns `await self.get_engagement(user_id=user_id, feed_id=feed_id)`
without forwarding `is_comment`, so the read-back always uses the `feeds`
key space regardless of the `is_comment` argument of the write. -/
def setEngagement (s : Store) (userId feedId : String) (t : EngType)
    (isComment : Bool) : Store × Snapshot :=
  let s' := setEngagementState s userId feedId t isComment
  (s', getEngagement s' userId feedId false)

/-- Embedding of `CacheManager.remove_engagement` including its return value
(same dropped `is_comment` on the read-back as `set_engagement`). -/
def removeEngagement (s : Store) (userId feedId : String) (t : EngType)
    (isComment : Bool) : Store × Snapshot :=
  let s' := removeEngagementState s userId feedId t isComment
  (s', getEngagement s' userId feedId false)

/-! Cascade delete (`CacheManager.delete_feed` and
`get_all_nested_comment_ids`, my_redis.py lines 324-408). -/

/-- Non-strict lexicographic order on member strings, used only to fix a
canonical enumeration of a Redis set (`SMEMBERS` returns its members in an
unspecified order; any fixed enumeration is a faithful model because every
per-member operation the source performs commutes across members). -/
def strLE (s t : String) : Prop := s.data < t.data ∨ s = t

instance (s t : String) : Decidable (strLE s t) :=
  inferInstanceAs (Decidable (s.data < t.data ∨ s = t))

instance : IsTrans String strLE where
  trans := by
    rintro a b c (h1 | rfl) (h2 | rfl)
    · exact Or.inl (h1.trans h2)
    · exact Or.inl h1
    · exact Or.inl h2
    · exact Or.inr rfl

instance : IsAntisymm String strLE where
  antisymm := by
    rintro a b (h1 | rfl) (h2 | h2)
    · exact absurd (h1.trans h2) (lt_irrefl _)
    · exact h2.symm
    · rfl
    · rfl

instance : IsTotal String strLE where
  total := by
    intro a b
    rcases lt_trichotomy a.data b.data with h | h | h
    · exact Or.inl (Or.inl h)
    · exact Or.inl (Or.inr (congrArg String.mk h))
    · exact Or.inr (Or.inl h)

/-- Canonical enumeration of a Redis set (model of iterating an `SMEMBERS`
result). -/
def smembersList (st : Finset String) : List String :=
  Quot.liftOn st.1 (fun l => List.insertionSort strLE l) (fun _ _ h =>
    List.eq_of_perm_of_sorted
      ((List.perm_insertionSort _ _).trans (h.trans (List.perm_insertionSort _ _).symm))
      (List.sorted_insertionSort _ _) (List.sorted_insertionSort _ _))

/-- Embedding of the `while queue:` loop of `get_all_nested_comment_ids`:
`queue.pop()` takes the most recently pushed id (the list head here mirrors
the Python list tail), its children are read from the adjacency set
`{prefix}:{current}:comments`, accumulated, and pushed; after the first
iteration the prefix switches to `comments`.  The loop is iterative with an
explicit queue — the embedding recurses only on the explicit `fuel` bound,
returning `none` when the store's adjacency graph is too deep (or cyclic)
for the given fuel, which models only non-termination, never a wrong
result. -/
def collectGo (s : Store) : ℕ → List String → Finset String → Kind → Option (Finset String)
  | _, [], acc, _ => some acc
  | 0, _ :: _, _, _ => none
  | fuel + 1, current :: rest, acc, k =>
    collectGo s fuel ((smembersList (s.sets k current "comments")).reverse ++ rest)
      (acc ∪ s.sets k current "comments") .comments

/-- Embedding of `get_all_nested_comment_ids(feed_id, is_feed)`. -/
def getAllNestedCommentIds (s : Store) (fuel : ℕ) (feedId : String) (isFeed : Bool) :
    Option (Finset String) :=
  collectGo s fuel [feedId] ∅ (if isFeed then .feeds else .comments)

/-- Per-comment section of the delete pipeline (my_redis.py lines 343-350):
for each engagement suffix, `DEL comments:{cid}:{suffix}`,
`SREM users:{aid}:comments cid`, `SREM users:{aid}:{suffix} cid`; then the
author/parent pointers and the adjacency set of `cid` are deleted.  `aid` is
the author pointer read in the preceding pipeline (Python interpolates a
missing pointer as the literal string `None`). -/
def deleteCommentStep (st : Store) (cid : String) (aid : Option String) : Store :=
  (((engSuffixes.foldl (fun acc suf =>
    ((acc.delSet .comments cid suf).srem .users (optToStr aid) "comments" cid).srem
      .users (optToStr aid) suf cid) st).delStr cid "author_id").delStr
    cid "parent_id").delSet .comments cid "comments"

/-- Top-level branch of `delete_feed` (my_redis.py lines 353-383): remove the
feed id from the global timeline, the author's own and following timelines
and every current follower's following timeline; for each engagement type
remove the feed id from each engaging user's reverse index and drop the
engagement set; finally delete the metadata hash and decrement the author's
post counter. -/
def deleteFeedTopLevel (s1 : Store) (authorId feedId : String) : Store :=
  (((engSuffixes.map (fun suf => (suf, s1.sets .feeds feedId suf))).foldl
      (fun acc p =>
        ((smembersList p.2).foldl (fun a uid => a.srem .users uid p.1 feedId) acc).delSet
          .feeds feedId p.1)
      ((smembersList (s1.sets .users authorId "followers")).foldl
        (fun acc fid => acc.zrem (.following fid) feedId)
        (((s1.zrem .global feedId).zrem (.userTl authorId) feedId).zrem
          (.following authorId) feedId))).delHash (.feedMeta feedId)).hincrby
    (.profile authorId) "feeds_count" (-1)

/-- Embedding of `CacheManager.delete_feed`: existence check on the metadata
hash decides feed vs comment; the nested closure is collected iteratively
(`none` = the queue did not drain within `fuel`, the model of the unbounded
Python loop still running); comment authors are read; the per-comment
deletion pipeline runs; then either the top-level branch or the
unlink-from-parent branch.  In the comment branch the parent pointer is read
back only after the pipeline already deleted it. -/
def deleteFeed (fuel : ℕ) (s : Store) (authorId feedId : String) : Option Store :=
  let isFeed : Bool := !(s.hashes (.feedMeta feedId)).isEmpty
  match getAllNestedCommentIds s fuel feedId isFeed with
  | none => none
  | some clo0 =>
    let clo := if isFeed then clo0 else insert feedId clo0
    let clist := smembersList clo
    let authors := clist.map (fun cid => s.strs cid "author_id")
    let s1 := (clist.zip authors).foldl (fun acc p => deleteCommentStep acc p.1 p.2) s
    if isFeed then some (deleteFeedTopLevel s1 authorId feedId)
    else
      match s1.strs feedId "parent_id" with
      | none => some s1
      | some pid =>
        let isParentFeed : Bool := !(s1.hashes (.feedMeta pid)).isEmpty
        some (s1.srem (if isParentFeed then .feeds else .comments) pid "comments" feedId)

/-- Order on stores along the delete pipelines: sets only lose members and
string pointers are only deleted (no operation of `delete_feed` ever adds a
set member or writes a pointer). -/
def Shrink (s1 s2 : Store) : Prop :=
  (∀ k i suf, s2.sets k i suf ⊆ s1.sets k i suf)
  ∧ (∀ i fld, s2.strs i fld = none ∨ s2.strs i fld = s1.strs i fld)

/-- Store for the C3 counterexample: feed `f1` (author `A`) has a single
comment `c1` (author `A`), which user `X` has liked — so `X`'s reverse like
index holds `c1`. -/
def cex3Store : Store where
  sets := fun k i suf =>
    if k = Kind.feeds ∧ i = "f1" ∧ suf = "comments" then {"c1"}
    else if k = Kind.comments ∧ i = "c1" ∧ suf = "likes" then {"X"}
    else if k = Kind.users ∧ i = "X" ∧ suf = "likes" then {"c1"}
    else ∅
  zsets := fun zk => if zk = ZKey.global then {("f1", 1)} else ∅
  strs := fun i fld =>
    if i = "c1" ∧ fld = "author_id" then some "A"
    else if i = "c1" ∧ fld = "parent_id" then some "f1"
    else none
  hashes := fun hk => if hk = HKey.feedMeta "f1" then [("id", "f1")] else []

/-! Sorted-set rank order.  Redis orders a sorted set ascending by score with
ties broken by the lexicographic order of the member string; `ZREVRANGE` and
`ZREMRANGEBYRANK` rank against this order. -/

/-- Strict rank order on (member, score) pairs: lower score first, ties by
the lexicographic order of the member string (compared through its character
list, which is the store's byte order on the ids the engine generates). -/
def rankLt (x y : String × ℚ) : Prop :=
  x.2 < y.2 ∨ (x.2 = y.2 ∧ x.1.data < y.1.data)

instance (x y : String × ℚ) : Decidable (rankLt x y) :=
  inferInstanceAs (Decidable (x.2 < y.2 ∨ (x.2 = y.2 ∧ x.1.data < y.1.data)))

/-- Non-strict descending rank order, used to lay out a sorted set the way
`ZREVRANGE` walks it (greatest rank first). -/
def rankGE (x y : String × ℚ) : Prop := rankLt y x ∨ x = y

instance (x y : String × ℚ) : Decidable (rankGE x y) :=
  inferInstanceAs (Decidable (rankLt y x ∨ x = y))

instance : IsTrans (String × ℚ) rankGE where
  trans := by
    rintro a b c (h1 | rfl) (h2 | rfl)
    · refine Or.inl ?_
      rcases h1 with h1 | ⟨e1, h1⟩ <;> rcases h2 with h2 | ⟨e2, h2⟩
      · exact Or.inl (h2.trans h1)
      · exact Or.inl (e2 ▸ h1)
      · exact Or.inl (e1 ▸ h2)
      · exact Or.inr ⟨e2.trans e1, h2.trans h1⟩
    · exact Or.inl h1
    · exact Or.inl h2
    · exact Or.inr rfl

instance : IsAntisymm (String × ℚ) rankGE where
  antisymm := by
    rintro a b (h1 | rfl) (h2 | h2)
    · rcases h1 with h1 | ⟨e1, h1⟩ <;> rcases h2 with h2 | ⟨e2, h2⟩
      · exact absurd (h1.trans h2) (lt_irrefl _)
      · exact absurd (e2 ▸ h1) (lt_irrefl _)
      · exact absurd (e1 ▸ h2) (lt_irrefl _)
      · exact absurd (h1.trans h2) (lt_irrefl _)
    · exact h2.symm
    · rfl
    · rfl

instance : IsTotal (String × ℚ) rankGE where
  total := by
    intro a b
    by_cases h : a = b
    · exact Or.inl (Or.inr h)
    · rcases lt_trichotomy a.2 b.2 with hs | hs | hs
      · exact Or.inr (Or.inl (Or.inl hs))
      · rcases lt_trichotomy a.1.data b.1.data with hm | hm | hm
        · exact Or.inr (Or.inl (Or.inr ⟨hs, hm⟩))
        · exact absurd (Prod.ext (congrArg String.mk hm) hs) h
        · exact Or.inl (Or.inl (Or.inr ⟨hs.symm, hm⟩))
      · exact Or.inl (Or.inl (Or.inl hs))

/-- Members of a sorted set in `ZREVRANGE` order (descending rank).  Defined
by insertion sort on the underlying multiset (well-defined because `rankGE`
is a total antisymmetric transitive order, so the sorted enumeration is
unique — same construction as `Multiset.sort`, but with a structurally
recursive sort so concrete stores evaluate). -/
def sortDesc (tl : Finset (String × ℚ)) : List (String × ℚ) :=
  Quot.liftOn tl.1 (fun l => List.insertionSort rankGE l) (fun _ _ h =>
    List.eq_of_perm_of_sorted
      ((List.perm_insertionSort _ _).trans (h.trans (List.perm_insertionSort _ _).symm))
      (List.sorted_insertionSort _ _) (List.sorted_insertionSort _ _))

/-- Redis `ZREVRANGE key start end` (inclusive bounds, as the source always
calls it with non-negative bounds): member strings at descending ranks
`start..end`. -/
def zrevrange (tl : Finset (String × ℚ)) (start en : ℕ) : List String :=
  ((((sortDesc tl).map Prod.fst).drop start).take (en + 1 - start))

/-! Timeline writes (`CacheManager.create_feed`, my_redis.py lines 284-308).
Every timeline insert is the pipeline pair `ZADD key {feed_id: score}` then
`ZREMRANGEBYRANK key 0 (-cap-1)` (cap 360 for the global timeline, 120 for
the per-user following and own timelines). -/

/-- Elements ranked strictly above `x` in a sorted set. -/
def above (s : Finset (String × ℚ)) (x : String × ℚ) : Finset (String × ℚ) :=
  s.filter (fun y => rankLt x y)

/-- Redis `ZADD key {m: sc}`: binds member `m` to score `sc`, replacing any
previous binding. -/
def zadd (tl : Finset (String × ℚ)) (m : String) (sc : ℚ) : Finset (String × ℚ) :=
  insert (m, sc) (tl.filter (fun p => p.1 ≠ m))

/-- Redis `ZREMRANGEBYRANK key 0 (-cap-1)`: removes the members at ascending
ranks `0 .. card-cap-1` (nothing when `card ≤ cap`), i.e. keeps exactly the
members with fewer than `cap` members ranked above them. -/
def ztrim (cap : ℕ) (tl : Finset (String × ℚ)) : Finset (String × ℚ) :=
  tl.filter (fun x => (above tl x).card < cap)

/-- Effect of one `create_feed` on one timeline: `ZADD` then trim. -/
def timelineInsert (cap : ℕ) (tl : Finset (String × ℚ)) (m : String) (sc : ℚ) :
    Finset (String × ℚ) :=
  ztrim cap (zadd tl m sc)

/-- Timeline contents after a sequence of `create_feed` insertions into one
(initially empty) timeline. -/
def runTimeline (cap : ℕ) (l : List (String × ℚ)) : Finset (String × ℚ) :=
  l.foldl (fun tl e => timelineInsert cap tl e.1 e.2) ∅

/-- Hash field values of a feed dict. -/
def feedIdOf (m : List (String × String)) : String :=
  (hfind m "id").getD ""

/-- Author id field of a feed dict (Python `feed["author_id"]`). -/
def authorIdOf (m : List (String × String)) : String :=
  (hfind m "author_id").getD ""

/-- One store command inside a pipelined batch. -/
inductive Cmd where
  | hgetall (k : HKey)
  | scard (k : Kind) (i suf : String)
  | sismember (k : Kind) (i suf m : String)
  | hmget (k : HKey) (fields : List String)
deriving DecidableEq, Repr

/-- Hydrated feed as assembled by `_get_feeds`: the meta dict (with
`author_id` popped), the sparse engagement object, and the attached author
profile projection. -/
structure FeedOut where
  meta : List (String × String)
  engagement : Snapshot
  author : List (String × Option String)
deriving DecidableEq, Repr

/-- Sparse engagement object of one feed inside `_get_feeds`: positive
counters from `SCARD feeds:{id}:{key}`, and — only when a viewer id was
given — the true membership flags over the five non-comment types. -/
def engagementObj (s : Store) (fid : String) (viewer : Option String) : Snapshot :=
  let counts := engSuffixes.map (fun k => (k, (s.sets .feeds fid k).card))
  let flags :=
    match viewer with
    | none => []
    | some uid =>
      (engSuffixes.tail.zip interactionKeys).filterMap
        (fun p => if uid ∈ s.sets .feeds fid p.1 then some p.2 else none)
  { counts := counts.filter (fun p => 0 < p.2), flags := flags }

/-- Profile field list fetched per author by `_get_feeds`. -/
def profileKeys : List String := ["id", "name", "username", "avatar_url"]

/-- Embedding of `CacheManager._get_feeds` together with its round-trip
trace: the hydrated page and the list of pipelined batch submissions.  The
source awaits `pipe.execute()` exactly three times — metadata, engagement,
author profiles — each batch containing per-id commands, so the trace is the
list of those three batches whatever the page size. -/
def getFeedsBatches (s : Store) (feedIds : List String) (viewer : Option String) :
    List FeedOut × List (List Cmd) :=
  let batch1 : List Cmd := feedIds.map (fun fid => .hgetall (.feedMeta fid))
  let metas := feedIds.map (fun fid => s.hashes (.feedMeta fid))
  let keptMetas := metas.filter (fun m => !m.isEmpty)
  let batch2 : List Cmd := keptMetas.flatMap (fun m =>
    engSuffixes.map (fun k => Cmd.scard .feeds (feedIdOf m) k)
      ++ (match viewer with
          | some uid => engSuffixes.tail.map (fun k => Cmd.sismember .feeds (feedIdOf m) k uid)
          | none => []))
  let authorIds := (keptMetas.map authorIdOf).dedup
  let batch3 : List Cmd := authorIds.map (fun aid => Cmd.hmget (.profile aid) profileKeys)
  let authorProfiles : List (String × List (String × Option String)) :=
    (authorIds.map (fun aid => profileKeys.map (fun k => hfind (s.hashes (.profile aid)) k))).filterMap
      (fun vals =>
        match vals.head? with
        | some (some idv) => if idv.isEmpty then none else some (idv, profileKeys.zip vals)
        | _ => none)
  let outs := keptMetas.map (fun m =>
    { meta := m.filter (fun p => p.1 ≠ "author_id")
      engagement := engagementObj s (feedIdOf m) viewer
      author := ((authorProfiles.find? (fun q => q.1 = authorIdOf m)).map Prod.snd).getD [] })
  (outs, [batch1, batch2, batch3])

/-- Hydrated page only. -/
def getFeeds (s : Store) (feedIds : List String) (viewer : Option String) : List FeedOut :=
  (getFeedsBatches s feedIds viewer).1

/-- Embedding of `CacheManager.get_following_timeline`: `ZCARD` of the
per-user following timeline, empty page when zero, else `ZREVRANGE` of the
requested slice hydrated through `_get_feeds`; second component is the
returned `end` counter. -/
def getFollowingTimeline (s : Store) (userId : String) (start en : ℕ) :
    List FeedOut × ℕ :=
  let total := (s.zsets (.following userId)).card
  if total = 0 then ([], 0)
  else (getFeeds s (zrevrange (s.zsets (.following userId)) start en) (some userId), total)

/-- Store for the C1 counterexample: user `u` follows almost nobody — the
following timeline caches only `f1` — while the global timeline also holds a
higher-scoring `g2`. -/
def c1Store : Store where
  sets := fun _ _ _ => ∅
  zsets := fun zk =>
    match zk with
    | .following v => if v = "u" then {("f1", 1)} else ∅
    | .global => {("f1", 1), ("g2", 2)}
    | _ => ∅
  strs := fun _ _ => none
  hashes := fun hk =>
    match hk with
    | .feedMeta f => if f = "f1" then [("id", "f1"), ("author_id", "a")]
        else if f = "g2" then [("id", "g2"), ("author_id", "a")] else []
    | .profile p => if p = "a" then [("id", "a"), ("name", "A")] else []

/-! Realtime layer (`src/pod/settings/my_websocket.py`). -/

/-- Closed event-type enum `ChatEvent` of `utility/my_enums.py`. -/
inductive ChatEvent where
  | typing_start
  | typing_stop
  | goes_online
  | goes_offline
  | enter_chat
  | exit_chat
  | created_chat
  | sent_message
deriving DecidableEq, Repr

/-- Python `ChatEvent(event_type)`: `some` member on an enum value, `none`
models the `ValueError` branch (AutoName: each member's value is its name). -/
def ChatEvent.ofString : String → Option ChatEvent
  | "typing_start" => some .typing_start
  | "typing_stop" => some .typing_stop
  | "goes_online" => some .goes_online
  | "goes_offline" => some .goes_offline
  | "enter_chat" => some .enter_chat
  | "exit_chat" => some .exit_chat
  | "created_chat" => some .created_chat
  | "sent_message" => some .sent_message
  | _ => none

/-- Relevant shape of one decoded inbound JSON event: the value of its
`type` field if present, and whether a `participant_id` key is present. -/
structure InboundMsg where
  typeField : Option String
  hasParticipantId : Bool
deriving DecidableEq, Repr

/-- Reaction of one receiver-loop iteration to an event. -/
inductive WsAction where
  | sendDetail (detail : String)
  | sendHeartbeatAck
  | publishEvent
deriving DecidableEq, Repr

/-- Embedding of the event-dispatch section of
`WebSocketContextManager._websocket_receiver` (my_websocket.py lines
235-256): the action taken for one received event, paired with whether the
receive loop continues to the next event (`true` = the branch ends in
`continue` or falls through to the next loop iteration). -/
def receiverStep (m : InboundMsg) : WsAction × Bool :=
  match m.typeField with
  | none => (.sendDetail "Missing event type.", true)
  | some t =>
    if t = "heartbeat" then (.sendHeartbeatAck, true)
    else
      match ChatEvent.ofString t with
      | none => (.sendDetail ("Invalid event type: '" ++ t ++ "'."), true)
      | some _ =>
        if !m.hasParticipantId then (.sendDetail "Participant ID is required.", true)
        else (.publishEvent, true)

/-- Connection-registry state of `WebSocketManager` (authorized dict modelled
as an association list, anonymous pool as a list of socket handles). -/
structure WSRegistry where
  authorized : List (String × ℕ)
  unauthorized : List ℕ
deriving DecidableEq, Repr

/-- Anonymous branch of `WebSocketManager.disconnect`: Python
`list.remove` deletes the first occurrence and raises `ValueError` when the
websocket is not in the pool; the method catches and re-raises it as a
`ValueError`, modelled by `Except.error`. -/
def wsDisconnectAnon (r : WSRegistry) (websocket : Option ℕ) : Except String WSRegistry :=
  match websocket with
  | some w =>
    if w ∈ r.unauthorized then .ok { r with unauthorized := r.unauthorized.erase w }
    else .error "Exception while disconnecting the websocket connection"
  | none => .ok r

/-- Embedding of `WebSocketManager.disconnect`: `if user_id:` (Python
truthiness, so the empty string falls through) pops the user from the
authorized dict with a `None` default — never an error — else the anonymous
branch runs. -/
def wsDisconnect (r : WSRegistry) (websocket : Option ℕ) (userId : Option String) :
    Except String WSRegistry :=
  match userId with
  | some u =>
    if u.isEmpty then wsDisconnectAnon r websocket
    else .ok { r with authorized := r.authorized.filter (fun p => p.1 ≠ u) }
  | none => wsDisconnectAnon r websocket

/-! Ranking score (`_scores_getter` / `_calculate_score`). -/

/-- Engagement counters of a feed, the model of the Python `stats` dict read
by `_scores_getter` with `.get(key, 0)` defaults. -/
structure Stats where
  comments : ℕ
  reposts : ℕ
  quotes : ℕ
  likes : ℕ
  views : ℕ
  bookmarks : ℕ
deriving DecidableEq, Repr

/-- Embedding of `_scores_getter`: the six counters in source order. -/
def scoresGetter (st : Stats) : ℕ × ℕ × ℕ × ℕ × ℕ × ℕ :=
  (st.comments, st.reposts, st.quotes, st.likes, st.views, st.bookmarks)

/-- Embedding of `_calculate_score` (the live variant, my_redis.py lines
780-783): `created_at + 100 * ln(1 + (comments + reposts + quotes)*5 +
likes*2 + views*0.5)`.  Note the destructuring uses all six counters of
`_scores_getter` but the formula never uses `bookmarks`. -/
noncomputable def calculateScore (st : Stats) (createdAt : ℝ) : ℝ :=
  match scoresGetter st with
  | (comments, reposts, quotes, likes, views, _bookmarks) =>
    createdAt
      + Real.log (1 + ((comments : ℝ) + reposts + quotes) * 5 + (likes : ℝ) * 2
          + (views : ℝ) * 0.5) * 100

/-! Theorems: everything below proves properties of the definitions above;
no definition follows this point. -/

/-! Pointwise description of the store updates. -/

theorem sets_updSet (s : Store) (k : Kind) (i suf : String) (f) (k' : Kind) (i' suf' : String) :
    (s.updSet k i suf f).sets k' i' suf'
      = if k' = k ∧ i' = i ∧ suf' = suf then f (s.sets k' i' suf') else s.sets k' i' suf' := rfl

theorem zsets_updSet (s : Store) (k : Kind) (i suf : String) (f) :
    (s.updSet k i suf f).zsets = s.zsets := rfl

theorem strs_updSet (s : Store) (k : Kind) (i suf : String) (f) :
    (s.updSet k i suf f).strs = s.strs := rfl

theorem hashes_updSet (s : Store) (k : Kind) (i suf : String) (f) :
    (s.updSet k i suf f).hashes = s.hashes := rfl

theorem engagement_write_kind (ic : Bool) :
    (if ic then Kind.comments else Kind.feeds) ≠ Kind.users := by
  cases ic <;> simp

/-- Claim C5, embedded statement.  Both `set_engagement` writes are `SADD`s, so
a second identical call leaves the membership set, the reverse index and hence
the whole store exactly as after the first call (in particular the type-`t`
cardinality for the entity agrees); and `remove_engagement` of a non-member is
a state no-op, given the documented mirror invariant between the membership
set and the per-user reverse index. -/
theorem engagement_toggle_idempotent (s : Store) (u f : String) (t : EngType) (ic : Bool) :
    setEngagementState (setEngagementState s u f t ic) u f t ic = setEngagementState s u f t ic
    ∧ ((setEngagementState (setEngagementState s u f t ic) u f t ic).sets
          (if ic then Kind.comments else Kind.feeds) f t.val).card
        = ((setEngagementState s u f t ic).sets
          (if ic then Kind.comments else Kind.feeds) f t.val).card
    ∧ ((u ∈ s.sets (if ic then Kind.comments else Kind.feeds) f t.val
          ↔ f ∈ s.sets Kind.users u t.val) →
        u ∉ s.sets (if ic then Kind.comments else Kind.feeds) f t.val →
        removeEngagementState s u f t ic = s) := by
  have hkind := engagement_write_kind ic
  have hstate : setEngagementState (setEngagementState s u f t ic) u f t ic
      = setEngagementState s u f t ic := by
    unfold setEngagementState engagementKeyPair Store.sadd
    refine Store.ext ?_ rfl rfl rfl
    funext k' i' suf'
    simp only [sets_updSet]
    split_ifs <;> simp_all [Finset.insert_idem]
  refine ⟨hstate, by rw [hstate], ?_⟩
  intro hmirror hnotmem
  have hnotrev : f ∉ s.sets Kind.users u t.val := fun h => hnotmem (hmirror.mpr h)
  unfold removeEngagementState engagementKeyPair Store.srem
  refine Store.ext ?_ rfl rfl rfl
  funext k' i' suf'
  simp only [sets_updSet]
  split_ifs <;> simp_all [Finset.erase_eq_of_not_mem]

/-- Witness for C5: the hypotheses of `engagement_toggle_idempotent` hold at a
concrete input (the empty cache, where the mirror invariant trivially holds
and the user is not a member), and the theorem yields the no-op. -/
theorem engagement_toggle_idempotent_witness :
    removeEngagementState Store.empty "u" "f" EngType.likes false = Store.empty :=
  (engagement_toggle_idempotent Store.empty "u" "f" EngType.likes false).2.2
    (by decide) (by decide)

theorem smembersList_coe (st : Finset String) :
    (smembersList st : Multiset String) = st.1 := by
  rcases st with ⟨m, hm⟩
  induction m using Quot.inductionOn with
  | h l => exact Quot.sound (List.perm_insertionSort _ l)

theorem mem_smembersList {st : Finset String} {x : String} :
    x ∈ smembersList st ↔ x ∈ st := by
  rw [← Multiset.mem_coe, smembersList_coe]
  exact Iff.rfl

theorem Shrink.refl (s : Store) : Shrink s s :=
  ⟨fun _ _ _ => Finset.Subset.refl _, fun _ _ => Or.inr (Eq.refl _)⟩

theorem Shrink.trans {s1 s2 s3 : Store} (h1 : Shrink s1 s2) (h2 : Shrink s2 s3) :
    Shrink s1 s3 := by
  refine ⟨fun k i suf => (h2.1 k i suf).trans (h1.1 k i suf), fun i fld => ?_⟩
  rcases h2.2 i fld with h | h
  · exact Or.inl h
  · rw [h]
    exact h1.2 i fld

theorem Shrink.not_mem {s1 s2 : Store} (h : Shrink s1 s2) {k : Kind} {i suf m : String}
    (hm : m ∉ s1.sets k i suf) : m ∉ s2.sets k i suf :=
  fun hx => hm (h.1 k i suf hx)

theorem Shrink.sets_empty {s1 s2 : Store} (h : Shrink s1 s2) {k : Kind} {i suf : String}
    (he : s1.sets k i suf = ∅) : s2.sets k i suf = ∅ :=
  Finset.subset_empty.mp (he ▸ h.1 k i suf)

theorem Shrink.strs_none {s1 s2 : Store} (h : Shrink s1 s2) {i fld : String}
    (hn : s1.strs i fld = none) : s2.strs i fld = none := by
  rcases h.2 i fld with h' | h'
  · exact h'
  · rw [h', hn]

theorem shrink_srem (s : Store) (k : Kind) (i suf m : String) : Shrink s (s.srem k i suf m) := by
  refine ⟨fun k' i' suf' => ?_, fun i' fld => Or.inr rfl⟩
  unfold Store.srem
  rw [sets_updSet]
  split_ifs
  · exact Finset.erase_subset _ _
  · exact Finset.Subset.refl _

theorem shrink_delSet (s : Store) (k : Kind) (i suf : String) : Shrink s (s.delSet k i suf) := by
  refine ⟨fun k' i' suf' => ?_, fun i' fld => Or.inr rfl⟩
  unfold Store.delSet
  rw [sets_updSet]
  split_ifs
  · exact Finset.empty_subset _
  · exact Finset.Subset.refl _

theorem shrink_delStr (s : Store) (i fld : String) : Shrink s (s.delStr i fld) := by
  refine ⟨fun k' i' suf' => Finset.Subset.refl _, fun i' fld' => ?_⟩
  unfold Store.delStr
  simp only
  split_ifs
  · exact Or.inl rfl
  · exact Or.inr rfl

theorem shrink_zrem (s : Store) (zk : ZKey) (m : String) : Shrink s (s.zrem zk m) :=
  ⟨fun _ _ _ => Finset.Subset.refl _, fun _ _ => Or.inr rfl⟩

theorem shrink_delHash (s : Store) (hk : HKey) : Shrink s (s.delHash hk) :=
  ⟨fun _ _ _ => Finset.Subset.refl _, fun _ _ => Or.inr rfl⟩

theorem shrink_hincrby (s : Store) (hk : HKey) (fld : String) (amount : Int) :
    Shrink s (s.hincrby hk fld amount) :=
  ⟨fun _ _ _ => Finset.Subset.refl _, fun _ _ => Or.inr rfl⟩

theorem shrink_foldl {α : Type} (f : Store → α → Store)
    (hf : ∀ st a, Shrink st (f st a)) (l : List α) (st : Store) :
    Shrink st (l.foldl f st) := by
  induction l generalizing st with
  | nil => exact Shrink.refl st
  | cons a t ih => exact (hf st a).trans (ih (f st a))

theorem shrink_deleteCommentStep (st : Store) (cid : String) (aid : Option String) :
    Shrink st (deleteCommentStep st cid aid) := by
  unfold deleteCommentStep
  refine Shrink.trans (Shrink.trans (Shrink.trans
    (shrink_foldl _ ?_ engSuffixes st) (shrink_delStr _ cid "author_id"))
    (shrink_delStr _ cid "parent_id")) (shrink_delSet _ .comments cid "comments")
  intro st' suf
  exact ((shrink_delSet st' .comments cid suf).trans
    (shrink_srem _ .users (optToStr aid) "comments" cid)).trans
    (shrink_srem _ .users (optToStr aid) suf cid)

theorem shrink_deleteFeedTopLevel (s1 : Store) (authorId feedId : String) :
    Shrink s1 (deleteFeedTopLevel s1 authorId feedId) := by
  unfold deleteFeedTopLevel
  refine Shrink.trans (Shrink.trans (Shrink.trans (Shrink.trans
    (Shrink.trans (Shrink.trans
      (shrink_zrem s1 .global feedId)
      (shrink_zrem _ (.userTl authorId) feedId))
      (shrink_zrem _ (.following authorId) feedId))
    (shrink_foldl _ (fun st fid => shrink_zrem st (.following fid) feedId) _ _))
    (shrink_foldl _ ?_ _ _))
    (shrink_delHash _ (.feedMeta feedId)))
    (shrink_hincrby _ (.profile authorId) "feeds_count" (-1))
  intro st p
  exact (shrink_foldl _ (fun a uid => shrink_srem a .users uid p.1 feedId) _ _).trans
    (shrink_delSet _ .feeds feedId p.1)

theorem sets_zrem (s : Store) (zk : ZKey) (m : String) : (s.zrem zk m).sets = s.sets := rfl

theorem sets_delHash (s : Store) (hk : HKey) : (s.delHash hk).sets = s.sets := rfl

theorem sets_hincrby (s : Store) (hk : HKey) (fld : String) (a : Int) :
    (s.hincrby hk fld a).sets = s.sets := rfl

theorem strs_delSet (s : Store) (k : Kind) (i suf : String) :
    (s.delSet k i suf).strs = s.strs := rfl

/-- After its own pipeline section, a comment is gone from its author's
reverse indices and comment index, its pointers are deleted and its own
engagement/adjacency sets are empty. -/
theorem deleteCommentStep_clears (st : Store) (cid : String) (aid : Option String) :
    (∀ suf ∈ engSuffixes,
      cid ∉ (deleteCommentStep st cid aid).sets .users (optToStr aid) suf)
    ∧ (deleteCommentStep st cid aid).strs cid "author_id" = none
    ∧ (deleteCommentStep st cid aid).strs cid "parent_id" = none
    ∧ (∀ suf ∈ engSuffixes, (deleteCommentStep st cid aid).sets .comments cid suf = ∅) := by
  have hstep : ∀ (st' : Store) (suf : String), Shrink st'
      (((st'.delSet .comments cid suf).srem .users (optToStr aid) "comments" cid).srem
        .users (optToStr aid) suf cid) := fun st' suf =>
    ((shrink_delSet st' .comments cid suf).trans
      (shrink_srem _ .users (optToStr aid) "comments" cid)).trans
      (shrink_srem _ .users (optToStr aid) suf cid)
  have hnm : ∀ (Y : Store) (suf : String),
      cid ∉ (((Y.delSet .comments cid suf).srem .users (optToStr aid) "comments" cid).srem
        .users (optToStr aid) suf cid).sets .users (optToStr aid) suf := by
    intro Y suf
    unfold Store.srem
    rw [sets_updSet]
    simp
  have hem : ∀ (Y : Store) (suf : String),
      (((Y.delSet .comments cid suf).srem .users (optToStr aid) "comments" cid).srem
        .users (optToStr aid) suf cid).sets .comments cid suf = ∅ := by
    intro Y suf
    unfold Store.srem Store.delSet
    rw [sets_updSet, sets_updSet, sets_updSet]
    simp
  have hfold : ∀ suf ∈ engSuffixes,
      cid ∉ (engSuffixes.foldl (fun acc suf' =>
        ((acc.delSet .comments cid suf').srem .users (optToStr aid) "comments" cid).srem
          .users (optToStr aid) suf' cid) st).sets .users (optToStr aid) suf
      ∧ (engSuffixes.foldl (fun acc suf' =>
        ((acc.delSet .comments cid suf').srem .users (optToStr aid) "comments" cid).srem
          .users (optToStr aid) suf' cid) st).sets .comments cid suf = ∅ := by
    intro suf hsuf
    obtain ⟨l₁, l₂, hsplit⟩ := List.append_of_mem hsuf
    rw [hsplit, List.foldl_append, List.foldl_cons]
    refine ⟨Shrink.not_mem (shrink_foldl _ hstep l₂ _) (hnm _ suf),
      Shrink.sets_empty (shrink_foldl _ hstep l₂ _) (hem _ suf)⟩
  have htail : Shrink (engSuffixes.foldl (fun acc suf' =>
      ((acc.delSet .comments cid suf').srem .users (optToStr aid) "comments" cid).srem
        .users (optToStr aid) suf' cid) st) (deleteCommentStep st cid aid) := by
    unfold deleteCommentStep
    exact ((shrink_delStr _ cid "author_id").trans
      (shrink_delStr _ cid "parent_id")).trans (shrink_delSet _ .comments cid "comments")
  refine ⟨fun suf hsuf => htail.not_mem (hfold suf hsuf).1, ?_, ?_,
    fun suf hsuf => htail.sets_empty (hfold suf hsuf).2⟩
  · unfold deleteCommentStep
    rw [strs_delSet]
    unfold Store.delStr
    simp
  · unfold deleteCommentStep
    rw [strs_delSet]
    unfold Store.delStr
    simp

/-- The top-level delete branch empties every engagement/adjacency set of the
feed itself. -/
theorem deleteFeedTopLevel_feeds_empty (s1 : Store) (authorId feedId : String) :
    ∀ suf ∈ engSuffixes, (deleteFeedTopLevel s1 authorId feedId).sets .feeds feedId suf = ∅ := by
  intro suf hsuf
  unfold deleteFeedTopLevel
  rw [sets_hincrby, sets_delHash, List.foldl_map]
  obtain ⟨l₁, l₂, hsplit⟩ := List.append_of_mem hsuf
  rw [hsplit, List.foldl_append, List.foldl_cons]
  have hstep : ∀ (st : Store) (suf' : String), Shrink st
      (((smembersList (s1.sets .feeds feedId suf')).foldl
        (fun a uid => a.srem .users uid suf' feedId) st).delSet .feeds feedId suf') :=
    fun st suf' =>
      (shrink_foldl _ (fun a uid => shrink_srem a .users uid suf' feedId) _ _).trans
        (shrink_delSet _ .feeds feedId suf')
  refine Shrink.sets_empty (shrink_foldl _ hstep l₂ _) ?_
  unfold Store.delSet
  rw [sets_updSet]
  simp

/-- Folding a two-list zip where the second list is a map of the first. -/
theorem foldl_zip_map (l : List String) (g : String → Option String)
    (f : Store → String × Option String → Store) (st : Store) :
    (l.zip (l.map g)).foldl f st = l.foldl (fun acc a => f acc (a, g a)) st := by
  induction l generalizing st with
  | nil => rfl
  | cons a t ih =>
    simp only [List.map_cons, List.zip_cons_cons, List.foldl_cons]
    exact ih _

/-- Under the top-level hypotheses, `delete_feed` runs the comment pipeline
then the top-level branch. -/
theorem deleteFeed_eq_top (fuel : ℕ) (s : Store) (author f : String) (clo : Finset String)
    (hfeed : (s.hashes (.feedMeta f)).isEmpty = false)
    (hclo : getAllNestedCommentIds s fuel f true = some clo) :
    deleteFeed fuel s author f = some (deleteFeedTopLevel
      (((smembersList clo).zip ((smembersList clo).map
        (fun cid => s.strs cid "author_id"))).foldl
        (fun acc p => deleteCommentStep acc p.1 p.2) s) author f) := by
  unfold deleteFeed
  simp only [hfeed, Bool.not_false, if_true, hclo]

/-- Claim C3 as amended.  For a top-level feed whose nested comment closure
is collected by the iterative queue-based traversal (any depth the fuel
covers), after `delete_feed` completes no comment id of the closure remains
in ITS AUTHOR'S per-type reverse engagement indices or comment index, its
author/parent pointer keys are deleted, all of its own engagement and
adjacency sets are gone, and — provided the store's adjacency occurrences of
closure members sit under the deleted thread (the shape `create_feed`
maintains) — no closure id remains in any `feeds:*:comments` or
`comments:*:comments` adjacency set.  (The code does NOT remove a comment id
from non-author users' reverse engagement indices; see the counterexample.) -/
theorem delete_feed_cascade (fuel : ℕ) (s s' : Store) (author f : String)
    (clo : Finset String)
    (hfeed : (s.hashes (.feedMeta f)).isEmpty = false)
    (hclo : getAllNestedCommentIds s fuel f true = some clo)
    (hrun : deleteFeed fuel s author f = some s')
    (hadj : ∀ c ∈ clo, (∀ z, c ∈ s.sets .feeds z "comments" → z = f)
      ∧ (∀ z, c ∈ s.sets .comments z "comments" → z ∈ clo)) :
    ∀ c ∈ clo,
      (∀ suf ∈ engSuffixes, c ∉ s'.sets .users (optToStr (s.strs c "author_id")) suf)
      ∧ s'.strs c "author_id" = none
      ∧ s'.strs c "parent_id" = none
      ∧ (∀ suf ∈ engSuffixes, s'.sets .comments c suf = ∅)
      ∧ (∀ k z, k ≠ Kind.users → c ∉ s'.sets k z "comments") := by
  rw [deleteFeed_eq_top fuel s author f clo hfeed hclo] at hrun
  have hs' : s' = deleteFeedTopLevel
      (((smembersList clo).zip ((smembersList clo).map
        (fun cid => s.strs cid "author_id"))).foldl
        (fun acc p => deleteCommentStep acc p.1 p.2) s) author f :=
    (Option.some.inj hrun).symm
  rw [foldl_zip_map] at hs'
  set g := fun (acc : Store) (cid : String) =>
    deleteCommentStep acc cid (s.strs cid "author_id") with hg
  have hgshrink : ∀ (st : Store) (cid : String), Shrink st (g st cid) :=
    fun st cid => shrink_deleteCommentStep st cid (s.strs cid "author_id")
  set s1 := (smembersList clo).foldl g s with hs1
  have hs'top : s' = deleteFeedTopLevel s1 author f := hs'
  have hshrink1 : Shrink s s1 := shrink_foldl g hgshrink _ s
  have hshrinkTop : Shrink s1 s' := hs'top ▸ shrink_deleteFeedTopLevel s1 author f
  have hshrinkAll : Shrink s s' := hshrink1.trans hshrinkTop
  -- per-closure-member facts established at each member's own fold position
  have hper : ∀ c ∈ clo,
      (∀ suf ∈ engSuffixes, c ∉ s'.sets .users (optToStr (s.strs c "author_id")) suf)
      ∧ s'.strs c "author_id" = none
      ∧ s'.strs c "parent_id" = none
      ∧ (∀ suf ∈ engSuffixes, s'.sets .comments c suf = ∅) := by
    intro c hc
    obtain ⟨l₁, l₂, hsplit⟩ := List.append_of_mem (mem_smembersList.mpr hc)
    have hs1split : s1 = l₂.foldl g (g (l₁.foldl g s) c) := by
      rw [hs1, hsplit, List.foldl_append, List.foldl_cons]
    have hclears := deleteCommentStep_clears (l₁.foldl g s) c (s.strs c "author_id")
    have hrest : Shrink (g (l₁.foldl g s) c) s' := by
      rw [hs'top, hs1split]
      exact (shrink_foldl g hgshrink l₂ _).trans
        (shrink_deleteFeedTopLevel _ author f)
    exact ⟨fun suf hsuf => hrest.not_mem (hclears.1 suf hsuf),
      hrest.strs_none hclears.2.1,
      hrest.strs_none hclears.2.2.1,
      fun suf hsuf => hrest.sets_empty (hclears.2.2.2 suf hsuf)⟩
  intro c hc
  refine ⟨(hper c hc).1, (hper c hc).2.1, (hper c hc).2.2.1, (hper c hc).2.2.2, ?_⟩
  intro k z hk
  have hcomments : "comments" ∈ engSuffixes := by decide
  cases k with
  | users => exact absurd rfl hk
  | feeds =>
    by_cases hz : z = f
    · subst hz
      rw [hs'top]
      rw [deleteFeedTopLevel_feeds_empty s1 author z "comments" hcomments]
      exact Finset.not_mem_empty c
    · have h0 : c ∉ s.sets .feeds z "comments" :=
        fun hmem => hz ((hadj c hc).1 z hmem)
      exact hshrinkAll.not_mem h0
  | comments =>
    by_cases hz : z ∈ clo
    · rw [(hper z hz).2.2.2 "comments" hcomments]
      exact Finset.not_mem_empty c
    · have h0 : c ∉ s.sets .comments z "comments" :=
        fun hmem => hz ((hadj c hc).2 z hmem)
      exact hshrinkAll.not_mem h0

/-- Claim C3, counterexample.  Deleting feed `f1` collects the closure
`{c1}` and completes, yet `c1` is still present in user `X`'s per-type
reverse engagement index `users:X:likes` afterwards: the cascade removes a
comment only from its AUTHOR'S reverse indices (`users:A:*`), never from the
indices of other users who engaged with it. -/
theorem delete_feed_reverse_index_counterexample :
    getAllNestedCommentIds cex3Store 3 "f1" true = some {"c1"}
    ∧ (deleteFeed 3 cex3Store "A" "f1").isSome = true
    ∧ "X" ∈ cex3Store.sets .comments "c1" "likes"
    ∧ "c1" ∈ ((deleteFeed 3 cex3Store "A" "f1").getD cex3Store).sets Kind.users "X" "likes" := by
  refine ⟨by decide, by decide, by decide, by decide⟩

/-- Witness for C3: the amended cascade theorem applied to the concrete
`cex3Store`; the adjacency hypothesis is checked by hand on the two key
families, and the conclusions are read off for the closure member `c1`. -/
theorem delete_feed_cascade_witness :
    "c1" ∉ ((deleteFeed 3 cex3Store "A" "f1").getD cex3Store).sets Kind.users "A" "likes"
    ∧ ((deleteFeed 3 cex3Store "A" "f1").getD cex3Store).strs "c1" "author_id" = none
    ∧ ((deleteFeed 3 cex3Store "A" "f1").getD cex3Store).sets Kind.comments "c1" "likes" = ∅
    ∧ "c1" ∉ ((deleteFeed 3 cex3Store "A" "f1").getD cex3Store).sets Kind.feeds "f1" "comments" := by
  have hrun : deleteFeed 3 cex3Store "A" "f1"
      = some ((deleteFeed 3 cex3Store "A" "f1").getD cex3Store) := by rfl
  have hadj : ∀ c ∈ ({"c1"} : Finset String),
      (∀ z, c ∈ cex3Store.sets .feeds z "comments" → z = "f1")
      ∧ (∀ z, c ∈ cex3Store.sets .comments z "comments" → z ∈ ({"c1"} : Finset String)) := by
    intro c hc
    constructor
    · intro z hz
      by_cases h : z = "f1"
      · exact h
      · simp [cex3Store, h] at hz
    · intro z hz
      simp [cex3Store] at hz
  have h := delete_feed_cascade 3 cex3Store
    ((deleteFeed 3 cex3Store "A" "f1").getD cex3Store) "A" "f1" {"c1"}
    (by decide) (by decide) hrun hadj "c1" (by decide)
  exact ⟨h.1 "likes" (by decide), h.2.1, by
      rw [h.2.2.2.1 "likes" (by decide)], h.2.2.2.2 Kind.feeds "f1" (by decide)⟩

theorem rankLt_irrefl (x : String × ℚ) : ¬ rankLt x x := by
  rintro (h | ⟨-, h⟩) <;> exact lt_irrefl _ h

theorem rankLt_trans {x y z : String × ℚ} (h1 : rankLt x y) (h2 : rankLt y z) :
    rankLt x z := by
  rcases h1 with h1 | ⟨e1, h1⟩ <;> rcases h2 with h2 | ⟨e2, h2⟩
  · exact Or.inl (h1.trans h2)
  · exact Or.inl (e2 ▸ h1)
  · exact Or.inl (e1 ▸ h2)
  · exact Or.inr ⟨e1.trans e2, h1.trans h2⟩

theorem rankLt_asymm {x y : String × ℚ} (h : rankLt x y) : ¬ rankLt y x :=
  fun h' => rankLt_irrefl x (rankLt_trans h h')

theorem rankLt_total {x y : String × ℚ} (h : x ≠ y) : rankLt x y ∨ rankLt y x := by
  rcases lt_trichotomy x.2 y.2 with hs | hs | hs
  · exact Or.inl (Or.inl hs)
  · rcases lt_trichotomy x.1.data y.1.data with hm | hm | hm
    · exact Or.inl (Or.inr ⟨hs, hm⟩)
    · exact absurd (Prod.ext (congrArg String.mk hm) hs) h
    · exact Or.inr (Or.inr ⟨hs.symm, hm⟩)
  · exact Or.inr (Or.inl hs)

/-- The sorted enumeration carries the same members as the sorted set. -/
theorem sortDesc_coe (tl : Finset (String × ℚ)) :
    (sortDesc tl : Multiset (String × ℚ)) = tl.1 := by
  rcases tl with ⟨m, hm⟩
  induction m using Quot.inductionOn with
  | h l => exact Quot.sound (List.perm_insertionSort _ l)

theorem sortDesc_nodup (tl : Finset (String × ℚ)) : (sortDesc tl).Nodup := by
  have h := tl.nodup
  rw [← sortDesc_coe tl] at h
  exact h

theorem mem_sortDesc {tl : Finset (String × ℚ)} {x : String × ℚ} :
    x ∈ sortDesc tl ↔ x ∈ tl := by
  rw [← Multiset.mem_coe, sortDesc_coe]
  exact Iff.rfl

theorem mem_above {s : Finset (String × ℚ)} {x y : String × ℚ} :
    y ∈ above s x ↔ y ∈ s ∧ rankLt x y := Finset.mem_filter

theorem above_subset_above {s : Finset (String × ℚ)} {x y : String × ℚ}
    (h : rankLt x y) : above s y ⊆ above s x := by
  intro z hz
  rw [mem_above] at hz ⊢
  exact ⟨hz.1, rankLt_trans h hz.2⟩

theorem above_card_lt {s : Finset (String × ℚ)} {x y : String × ℚ}
    (hy : y ∈ s) (h : rankLt x y) : (above s y).card < (above s x).card := by
  refine Finset.card_lt_card ⟨above_subset_above h, fun hsub => ?_⟩
  have hyx : y ∈ above s x := mem_above.mpr ⟨hy, h⟩
  have := mem_above.mp (hsub hyx)
  exact rankLt_irrefl y this.2

theorem mem_ztrim {cap : ℕ} {s : Finset (String × ℚ)} {x : String × ℚ} :
    x ∈ ztrim cap s ↔ x ∈ s ∧ (above s x).card < cap := Finset.mem_filter

theorem ztrim_subset (cap : ℕ) (s : Finset (String × ℚ)) : ztrim cap s ⊆ s :=
  Finset.filter_subset _ s

theorem ztrim_card_le (cap : ℕ) (s : Finset (String × ℚ)) :
    (ztrim cap s).card ≤ cap := by
  have h : (ztrim cap s).card ≤ (Finset.range cap).card := by
    refine Finset.card_le_card_of_injOn (fun x => (above s x).card) ?_ ?_
    · intro x hx
      simp only [Finset.mem_range]
      exact (mem_ztrim.mp hx).2
    · intro x hx y hy hxy
      by_contra hne
      rcases rankLt_total hne with h' | h'
      · exact absurd hxy (Nat.ne_of_gt (above_card_lt (mem_ztrim.mp (Finset.mem_coe.mp hy)).1 h'))
      · exact absurd hxy (Nat.ne_of_lt (above_card_lt (mem_ztrim.mp (Finset.mem_coe.mp hx)).1 h'))
  simpa using h

/-- Every member dropped by the trim ranks strictly below every kept one. -/
theorem dropped_lt_kept {cap : ℕ} {s : Finset (String × ℚ)} {w y : String × ℚ}
    (hw : w ∈ s) (hwd : w ∉ ztrim cap s) (hy : y ∈ ztrim cap s) : rankLt w y := by
  have hcw : ¬ (above s w).card < cap := fun h => hwd (mem_ztrim.mpr ⟨hw, h⟩)
  obtain ⟨hys, hcy⟩ := mem_ztrim.mp hy
  have hne : w ≠ y := fun h => hwd (h ▸ hy)
  rcases rankLt_total hne with h' | h'
  · exact h'
  · exact absurd (Nat.lt_trans (above_card_lt hw h') hcy) hcw

/-- When the trim drops anything, it keeps at least `cap` members. -/
theorem ztrim_card_ge_of_dropped {cap : ℕ} {s : Finset (String × ℚ)}
    (hne : (s \ ztrim cap s).Nonempty) : cap ≤ (ztrim cap s).card := by
  obtain ⟨w, hw, hmin⟩ := Finset.exists_min_image (s \ ztrim cap s)
    (fun w => (above s w).card) hne
  obtain ⟨hws, hwd⟩ := Finset.mem_sdiff.mp hw
  have hsub : above s w ⊆ ztrim cap s := by
    intro z hz
    obtain ⟨hzs, hzr⟩ := mem_above.mp hz
    by_contra hzd
    have hz' : z ∈ s \ ztrim cap s := Finset.mem_sdiff.mpr ⟨hzs, hzd⟩
    exact absurd (hmin z hz') (Nat.not_le_of_lt (above_card_lt hzs hzr))
  have hcw : ¬ (above s w).card < cap := fun h => hwd (mem_ztrim.mpr ⟨hws, h⟩)
  exact le_trans (Nat.le_of_not_lt hcw) (Finset.card_le_card hsub)

theorem above_union (A B : Finset (String × ℚ)) (y : String × ℚ) :
    above (A ∪ B) y = above A y ∪ above B y :=
  Finset.filter_union _ _ _

theorem above_mono {A B : Finset (String × ℚ)} (h : A ⊆ B) (y : String × ℚ) :
    above A y ⊆ above B y :=
  Finset.filter_subset_filter _ h

/-- Streaming step of the bounded timeline: trimming after inserting into an
already-trimmed set gives the same result as trimming the untrimmed history.
This is the key invariant behind `ZADD` + `ZREMRANGEBYRANK` per insert. -/
theorem ztrim_insert_ztrim (cap : ℕ) (s : Finset (String × ℚ)) (x : String × ℚ)
    (hx : x ∉ s) :
    ztrim cap (insert x (ztrim cap s)) = ztrim cap (insert x s) := by
  set T := ztrim cap s with hT
  set D := s \ T with hD
  have hTsub : T ⊆ s := ztrim_subset cap s
  have hxT : x ∉ T := fun h => hx (hTsub h)
  have hdecomp : insert x s = insert x T ∪ D := by
    ext z
    simp only [Finset.mem_insert, Finset.mem_union, Finset.mem_sdiff, hD]
    by_cases hz : z ∈ T
    · simp [hz, hTsub hz]
    · simp [hz]
  have hdisjAbove : ∀ y, Disjoint (above (insert x T) y) (above D y) := by
    intro y
    refine Finset.disjoint_filter_filter ?_
    rw [Finset.disjoint_left]
    intro z hz hzD
    obtain ⟨hzs, hzT⟩ := Finset.mem_sdiff.mp hzD
    rcases Finset.mem_insert.mp hz with rfl | hzT'
    · exact hx hzs
    · exact hzT hzT'
  have hcard : ∀ y, (above (insert x s) y).card
      = (above (insert x T) y).card + (above D y).card := by
    intro y
    rw [hdecomp, above_union]
    exact Finset.card_union_of_disjoint (hdisjAbove y)
  apply Finset.ext
  intro y
  rw [mem_ztrim, mem_ztrim]
  by_cases hyx : y = x
  · subst hyx
    constructor
    · rintro ⟨-, hlt⟩
      refine ⟨Finset.mem_insert_self _ _, ?_⟩
      have hDx : above D y = ∅ := by
        by_contra hne
        obtain ⟨w, hw⟩ := Finset.nonempty_of_ne_empty hne
        obtain ⟨hwD, hxw⟩ := mem_above.mp hw
        obtain ⟨hwS, hwT⟩ := Finset.mem_sdiff.mp hwD
        have hcap : cap ≤ T.card := ztrim_card_ge_of_dropped ⟨w, hwD⟩
        have hTabove : T ⊆ above (insert y T) y := by
          intro t ht
          exact mem_above.mpr ⟨Finset.mem_insert_of_mem ht,
            rankLt_trans hxw (dropped_lt_kept hwS hwT ht)⟩
        exact absurd hlt (Nat.not_lt_of_le
          (le_trans hcap (Finset.card_le_card hTabove)))
      rw [hcard, hDx]
      simpa using hlt
    · rintro ⟨-, hlt⟩
      refine ⟨Finset.mem_insert_self _ _, ?_⟩
      refine Nat.lt_of_le_of_lt (Finset.card_le_card
        (above_mono (Finset.insert_subset_insert _ hTsub) y)) hlt
  · by_cases hyT : y ∈ T
    · have hyS : y ∈ s := hTsub hyT
      have hDy : above D y = ∅ := by
        rw [Finset.eq_empty_iff_forall_not_mem]
        intro w hw
        obtain ⟨hwD, hyw⟩ := mem_above.mp hw
        obtain ⟨hwS, hwT⟩ := Finset.mem_sdiff.mp hwD
        exact rankLt_asymm (dropped_lt_kept hwS hwT hyT) hyw
      have hc : (above (insert x s) y).card = (above (insert x T) y).card := by
        rw [hcard, hDy] ; simp
      constructor
      · rintro ⟨-, hlt⟩
        exact ⟨Finset.mem_insert_of_mem hyS, by rw [hc] ; exact hlt⟩
      · rintro ⟨-, hlt⟩
        exact ⟨Finset.mem_insert_of_mem hyT, by rw [← hc] ; exact hlt⟩
    · by_cases hyS : y ∈ s
      · have hcw : ¬ (above s y).card < cap := by
          intro h
          exact hyT (mem_ztrim.mpr ⟨hyS, h⟩)
        constructor
        · rintro ⟨hy, -⟩
          rcases Finset.mem_insert.mp hy with h | h
          · exact absurd h hyx
          · exact absurd h hyT
        · rintro ⟨-, hlt⟩
          have hsub : above s y ⊆ above (insert x s) y :=
            above_mono (Finset.subset_insert _ _) y
          exact absurd (Nat.lt_of_le_of_lt (Finset.card_le_card hsub) hlt) hcw
      · constructor
        · rintro ⟨hy, -⟩
          rcases Finset.mem_insert.mp hy with h | h
          · exact absurd h hyx
          · exact absurd (hTsub h) hyS
        · rintro ⟨hy, -⟩
          rcases Finset.mem_insert.mp hy with h | h
          · exact absurd h hyx
          · exact absurd h hyS

/-- Claim C4.  For every cap (360 for the global timeline, 120 for the
per-user following and own timelines) and every sequence of `create_feed`
insertions with pairwise distinct feed ids: the timeline obtained by running
`ZADD` + `ZREMRANGEBYRANK 0 (-cap-1)` per insert never exceeds `cap`
members, and its members are exactly the (at most) `cap` rank-greatest
(highest-scoring, ties broken by member string as the store orders them)
entries inserted so far — i.e. the trim of the whole insertion history. -/
theorem timeline_cap_invariant (cap : ℕ) (l : List (String × ℚ))
    (hnd : (l.map Prod.fst).Nodup) :
    runTimeline cap l = ztrim cap l.toFinset
    ∧ (runTimeline cap l).card ≤ cap
    ∧ (∀ x, x ∈ runTimeline cap l
        ↔ x ∈ l.toFinset ∧ (above l.toFinset x).card < cap) := by
  have hmain : runTimeline cap l = ztrim cap l.toFinset := by
    induction l using List.reverseRecOn with
    | nil => rfl
    | append_singleton l x ih =>
      have hnd' : (l.map Prod.fst).Nodup := by
        rw [List.map_append] at hnd
        exact (List.nodup_append.mp hnd).1
      have hfresh : x.1 ∉ l.map Prod.fst := by
        rw [List.map_append] at hnd
        have h2 := (List.nodup_append.mp hnd).2.2
        intro hmem
        exact h2 hmem (by simp)
      have hxs : x ∉ l.toFinset := by
        intro h
        exact hfresh (List.mem_map_of_mem Prod.fst (List.mem_toFinset.mp h))
      have hzadd : zadd (ztrim cap l.toFinset) x.1 x.2 = insert x (ztrim cap l.toFinset) := by
        unfold zadd
        rw [Prod.mk.eta]
        congr 1
        refine Finset.filter_true_of_mem ?_
        intro p hp
        intro hpe
        have hpl : p ∈ l.toFinset := ztrim_subset cap l.toFinset hp
        exact hfresh (hpe ▸ List.mem_map_of_mem Prod.fst (List.mem_toFinset.mp hpl))
      have hstep : runTimeline cap (l ++ [x])
          = ztrim cap (zadd (runTimeline cap l) x.1 x.2) := by
        unfold runTimeline
        rw [List.foldl_append]
        rfl
      rw [hstep, ih hnd', hzadd, ztrim_insert_ztrim cap l.toFinset x hxs]
      congr 1
      rw [List.toFinset_append, Finset.insert_eq, Finset.union_comm]
      simp
  refine ⟨hmain, hmain ▸ ztrim_card_le cap l.toFinset, fun x => ?_⟩
  rw [hmain]
  exact mem_ztrim

/-- Witness for C4: `timeline_cap_invariant` at cap 2 with three concrete
insertions; the trim retains exactly the two highest-scoring feed ids. -/
theorem timeline_cap_invariant_witness :
    runTimeline 2 [("a", 1), ("b", 2), ("c", 3)]
      = ztrim 2 ([("a", 1), ("b", 2), ("c", 3)] : List (String × ℚ)).toFinset
    ∧ (runTimeline 2 [("a", 1), ("b", 2), ("c", 3)]).card ≤ 2
    ∧ runTimeline 2 [("a", 1), ("b", 2), ("c", 3)] = {("b", 2), ("c", 3)} := by
  have h := timeline_cap_invariant 2 [("a", 1), ("b", 2), ("c", 3)] (by decide)
  exact ⟨h.1, h.2.1, by decide⟩

/-- Claim C7.  For every page of feed ids (any length, with or without a
viewer) the read-side hydration `_get_feeds` submits exactly three pipelined
batches — metadata, engagement, author profiles — so the number of store
round-trips is constant in the page size and no per-id awaited round-trip
occurs. -/
theorem get_feeds_three_round_trips (s : Store) (feedIds : List String)
    (viewer : Option String) :
    ((getFeedsBatches s feedIds viewer).2).length = 3 := rfl

/-- Looking up one hash field is unaffected by popping a different field. -/
theorem hfind_filter_ne (m : List (String × String)) (k k' : String) (h : k ≠ k') :
    hfind (m.filter (fun p => p.1 ≠ k')) k = hfind m k := by
  induction m with
  | nil => rfl
  | cons a l ih =>
    simp only [decide_not] at ih
    by_cases ha : a.1 = k'
    · have hk : ¬ a.1 = k := fun hh => h (hh.symm.trans ha)
      simp [List.filter_cons, ha, hfind, hk, ih, Ne.symm h]
    · by_cases hk : a.1 = k
      · simp [List.filter_cons, ha, hfind, hk, h]
      · simp [List.filter_cons, ha, hfind, hk, ih]

/-- Ids of the surviving metadata dicts are exactly the requested ids whose
metadata hash is nonempty, provided stored metadata carries its own id. -/
theorem map_feedIdOf_filter (s : Store) (ids : List String)
    (hid : ∀ fid, (s.hashes (.feedMeta fid)).isEmpty = false →
      hfind (s.hashes (.feedMeta fid)) "id" = some fid) :
    ((ids.map (fun fid => s.hashes (.feedMeta fid))).filter (fun m => !m.isEmpty)).map feedIdOf
      = ids.filter (fun fid => !(s.hashes (.feedMeta fid)).isEmpty) := by
  induction ids with
  | nil => rfl
  | cons fid rest ih =>
    simp only [List.map_cons, List.filter_cons]
    by_cases hm : (s.hashes (.feedMeta fid)).isEmpty
    · simp [hm, ih]
    · have h1 := hid fid (by simpa using hm)
      simp [hm, feedIdOf, h1, ih]

/-- Page ids returned by `_get_feeds` (reading the `id` field of each
hydrated feed, as the route layer does). -/
theorem getFeeds_ids (s : Store) (ids : List String) (viewer : Option String)
    (hid : ∀ fid, (s.hashes (.feedMeta fid)).isEmpty = false →
      hfind (s.hashes (.feedMeta fid)) "id" = some fid) :
    (getFeeds s ids viewer).map (fun fo => feedIdOf fo.meta)
      = ids.filter (fun fid => !(s.hashes (.feedMeta fid)).isEmpty) := by
  have hpop : ∀ m : List (String × String),
      feedIdOf (m.filter (fun p => p.1 ≠ "author_id")) = feedIdOf m := by
    intro m
    unfold feedIdOf
    rw [hfind_filter_ne m "id" "author_id" (by decide)]
  calc (getFeeds s ids viewer).map (fun fo => feedIdOf fo.meta)
      = ((ids.map (fun fid => s.hashes (.feedMeta fid))).filter (fun m => !m.isEmpty)).map
          (fun m => feedIdOf (m.filter (fun p => p.1 ≠ "author_id"))) := by
        simp [getFeeds, getFeedsBatches, List.map_map]
    _ = ((ids.map (fun fid => s.hashes (.feedMeta fid))).filter (fun m => !m.isEmpty)).map
          feedIdOf := by
        apply List.map_congr_left
        intro m _
        exact hpop m
    _ = ids.filter (fun fid => !(s.hashes (.feedMeta fid)).isEmpty) :=
        map_feedIdOf_filter s ids hid

/-- A `ZREVRANGE` slice has no duplicate members when the sorted set binds
each member to a single score. -/
theorem zrevrange_nodup (tl : Finset (String × ℚ)) (start en : ℕ)
    (huniq : ∀ p ∈ tl, ∀ q ∈ tl, p.1 = q.1 → p = q) :
    (zrevrange tl start en).Nodup := by
  have hsort : (sortDesc tl).Nodup := sortDesc_nodup tl
  have hmap : ((sortDesc tl).map Prod.fst).Nodup := by
    refine List.Nodup.map_on ?_ hsort
    intro x hx y hy hxy
    exact huniq x (mem_sortDesc.mp hx) y (mem_sortDesc.mp hy) hxy
  exact List.Nodup.sublist
    ((List.take_sublist _ _).trans (List.drop_sublist _ _)) hmap

/-- Claim C1, counterexample.  User `u`'s cached following timeline holds a
single entry — fewer than the requested `(start, end) = (0, 10)` page — and
`g2` sits in the global timeline without being among the selected ids, yet
`get_following_timeline` returns only `[f1]`: the shortfall is not backfilled
from the global timeline. -/
theorem following_backfill_counterexample :
    (c1Store.zsets (ZKey.following "u")).card < 10 - 0
    ∧ ("g2", 2) ∈ c1Store.zsets ZKey.global
    ∧ ((getFollowingTimeline c1Store "u" 0 10).1.map (fun fo => feedIdOf fo.meta)) = ["f1"]
    ∧ "g2" ∉ ((getFollowingTimeline c1Store "u" 0 10).1.map (fun fo => feedIdOf fo.meta)) := by
  refine ⟨by decide, by decide, by decide, by decide⟩

/-- Claim C1 as amended: `get_following_timeline` performs no backfill — the
page it returns consists of exactly the requested `ZREVRANGE` slice of the
user's cached following timeline (restricted to ids whose metadata is still
cached, in slice order), it never pads from the global timeline, and it
contains no duplicate feed ids. -/
theorem following_timeline_no_backfill (s : Store) (u : String) (start en : ℕ)
    (hid : ∀ fid, (s.hashes (.feedMeta fid)).isEmpty = false →
      hfind (s.hashes (.feedMeta fid)) "id" = some fid)
    (huniq : ∀ p ∈ s.zsets (.following u), ∀ q ∈ s.zsets (.following u), p.1 = q.1 → p = q) :
    ((getFollowingTimeline s u start en).1.map (fun fo => feedIdOf fo.meta))
      = (zrevrange (s.zsets (.following u)) start en).filter
          (fun fid => !(s.hashes (.feedMeta fid)).isEmpty)
    ∧ ((getFollowingTimeline s u start en).1.map (fun fo => feedIdOf fo.meta)).Nodup := by
  have hmain : ((getFollowingTimeline s u start en).1.map (fun fo => feedIdOf fo.meta))
      = (zrevrange (s.zsets (.following u)) start en).filter
          (fun fid => !(s.hashes (.feedMeta fid)).isEmpty) := by
    unfold getFollowingTimeline
    by_cases h0 : (s.zsets (.following u)).card = 0
    · have hempty : s.zsets (.following u) = ∅ := Finset.card_eq_zero.mp h0
      have hnil : sortDesc (∅ : Finset (String × ℚ)) = [] := rfl
      simp [h0, hempty, zrevrange, hnil]
    · simp only [h0, if_false]
      exact getFeeds_ids s _ (some u) hid
  refine ⟨hmain, ?_⟩
  rw [hmain]
  exact (zrevrange_nodup _ start en huniq).filter _

/-- Witness for C1: the amended theorem applied to the concrete `c1Store`,
where the slice is `[f1]` and the claim's hypotheses hold by evaluation. -/
theorem following_timeline_no_backfill_witness :
    ((getFollowingTimeline c1Store "u" 0 10).1.map (fun fo => feedIdOf fo.meta))
      = (zrevrange (c1Store.zsets (.following "u")) 0 10).filter
          (fun fid => !(c1Store.hashes (.feedMeta fid)).isEmpty) :=
  (following_timeline_no_backfill c1Store "u" 0 10
    (by
      intro fid hne
      by_cases h1 : fid = "f1"
      · subst h1 ; decide
      · by_cases h2 : fid = "g2"
        · subst h2 ; decide
        · simp [c1Store, h1, h2] at hne)
    (by decide)).1

/-- Claim C6, failing input evaluated.  On an empty cache,
`set_engagement("u1", "c1", likes, is_comment=True)` records the like against
the comment key space, but — because the source calls `get_engagement` without
forwarding `is_comment` — returns the snapshot of the (empty) `feeds:c1:*`
entity instead of the freshly recomputed snapshot of the comment entity
`{likes: 1, liked: true}`. -/
theorem set_engagement_comment_readback_bug :
    (setEngagement Store.empty "u1" "c1" EngType.likes true).2 = ⟨[], []⟩
    ∧ getEngagement (setEngagement Store.empty "u1" "c1" EngType.likes true).1 "u1" "c1" true
        = ⟨[("likes", 1)], ["liked"]⟩
    ∧ (setEngagement Store.empty "u1" "c1" EngType.likes true).2
        ≠ getEngagement (setEngagement Store.empty "u1" "c1" EngType.likes true).1 "u1" "c1" true := by
  refine ⟨by decide, by decide, by decide⟩

/-- Claim C8, counterexample.  The inbound event `{"type": "heartbeat"}` has a
`type` value that is not a member of the closed `ChatEvent` enum, yet the
receiver answers with a `heartbeat_ack` frame — not with the error frame
`{"detail": "Invalid event type: 'heartbeat'."}` the claim requires for every
non-member type, because the heartbeat check precedes the enum validation. -/
theorem receiver_heartbeat_counterexample :
    ChatEvent.ofString "heartbeat" = none
    ∧ receiverStep ⟨some "heartbeat", false⟩ = (.sendHeartbeatAck, true)
    ∧ receiverStep ⟨some "heartbeat", false⟩
        ≠ (.sendDetail "Invalid event type: 'heartbeat'.", true) := by
  refine ⟨rfl, rfl, by decide⟩

/-- Claim C8 as amended: a missing `type` yields the
`{"detail": "Missing event type."}` frame; a present `type` that is neither
the literal `"heartbeat"` nor a `ChatEvent` member yields
`{"detail": "Invalid event type: '<value>'."}`; and in every case the receive
loop continues to the next event (no branch terminates the connection). -/
theorem receiver_error_frames (m : InboundMsg) (t : String)
    (hht : t ≠ "heartbeat") (hbad : ChatEvent.ofString t = none) :
    (m.typeField = none → receiverStep m = (.sendDetail "Missing event type.", true))
    ∧ (m.typeField = some t →
        receiverStep m = (.sendDetail ("Invalid event type: '" ++ t ++ "'."), true))
    ∧ (receiverStep m).2 = true := by
  refine ⟨fun h => by simp [receiverStep, h], fun h => by simp [receiverStep, h, hht, hbad], ?_⟩
  unfold receiverStep
  cases hm : m.typeField with
  | none => rfl
  | some t' =>
    by_cases h1 : t' = "heartbeat"
    · simp [h1]
    · cases he : ChatEvent.ofString t' <;> by_cases hp : m.hasParticipantId <;> simp [h1, he, hp]

/-- Witness for C8: both error frames observed on concrete events through
`receiver_error_frames`. -/
theorem receiver_error_frames_witness :
    receiverStep ⟨none, false⟩ = (.sendDetail "Missing event type.", true)
    ∧ receiverStep ⟨some "frobnicate", false⟩
        = (.sendDetail ("Invalid event type: '" ++ "frobnicate" ++ "'."), true) :=
  ⟨(receiver_error_frames ⟨none, false⟩ "frobnicate" (by decide) (by decide)).1 rfl,
    (receiver_error_frames ⟨some "frobnicate", false⟩ "frobnicate"
      (by decide) (by decide)).2.1 rfl⟩

/-- Claim C9, counterexample.  After an anonymous websocket (handle 7) has
been removed from the pool, a second `disconnect` with the same argument does
not leave the registry unchanged without error: `list.remove` raises, and the
method re-raises a `ValueError`. -/
theorem ws_disconnect_second_call_counterexample :
    wsDisconnect ⟨[], [7]⟩ (some 7) none = .ok ⟨[], []⟩
    ∧ (wsDisconnect ⟨[], []⟩ (some 7) none).isOk = false := by
  refine ⟨rfl, rfl⟩

/-- Claim C9 as amended: removal keyed by a (non-empty) user id is idempotent
— a repeated `disconnect(user_id=u)` returns the same registry with no error —
but `disconnect(websocket=w)` for an anonymous websocket that is not in the
pool raises an error instead of being a no-op. -/
theorem ws_disconnect_idempotence (r : WSRegistry) (u : String) (w : ℕ)
    (hu : u ≠ "") (hw : w ∉ r.unauthorized) :
    wsDisconnect r none (some u)
      = .ok { r with authorized := r.authorized.filter (fun p => p.1 ≠ u) }
    ∧ wsDisconnect { r with authorized := r.authorized.filter (fun p => p.1 ≠ u) } none (some u)
      = .ok { r with authorized := r.authorized.filter (fun p => p.1 ≠ u) }
    ∧ (wsDisconnect r (some w) none).isOk = false := by
  have hne : u.isEmpty = false := by
    cases h : u.isEmpty
    · rfl
    · exact absurd ((String.isEmpty_iff u).mp h) hu
  have herr : wsDisconnect r (some w) none
      = .error "Exception while disconnecting the websocket connection" := by
    simp [wsDisconnect, wsDisconnectAnon, hw]
  refine ⟨by simp [wsDisconnect, hne], ?_, by rw [herr] ; rfl⟩
  simp only [wsDisconnect, hne, Bool.false_eq_true, if_false, List.filter_filter]
  simp

/-- Witness for C9: `ws_disconnect_idempotence` applied to a concrete registry
holding one authorized user and an absent anonymous handle. -/
theorem ws_disconnect_idempotence_witness :
    wsDisconnect ⟨[("a", 1)], []⟩ none (some "a") = .ok ⟨[], []⟩
    ∧ (wsDisconnect ⟨[("a", 1)], []⟩ (some 3) none).isOk = false := by
  have h := ws_disconnect_idempotence ⟨[("a", 1)], []⟩ "a" 3 (by decide) (by decide)
  exact ⟨h.1, h.2.2⟩

/-- Score of a fresh post: with all counters zero, `_calculate_score` is
exactly `created_at` (the logarithm term vanishes), which is why the
sorted-set model can use the `created_at` rationals as insertion scores. -/
theorem calculateScore_zero (t : ℝ) : calculateScore ⟨0, 0, 0, 0, 0, 0⟩ t = t := by
  simp [calculateScore, scoresGetter, Real.log_one]

/-- Claim C2, counterexample.  Two posts with equal creation time where one
strictly exceeds the other in the `bookmarks` engagement type (and equals it
everywhere else) have equal scores — not a strictly greater score — because
`_calculate_score` drops `bookmarks` from the weighted sum. -/
theorem score_bookmarks_counterexample :
    calculateScore ⟨0, 0, 0, 0, 0, 1⟩ 0 = calculateScore ⟨0, 0, 0, 0, 0, 0⟩ 0
    ∧ ¬ calculateScore ⟨0, 0, 0, 0, 0, 1⟩ 0 > calculateScore ⟨0, 0, 0, 0, 0, 0⟩ 0 := by
  have h : calculateScore ⟨0, 0, 0, 0, 0, 1⟩ 0 = calculateScore ⟨0, 0, 0, 0, 0, 0⟩ 0 := by
    norm_num [calculateScore, scoresGetter]
  exact ⟨h, by rw [h] ; exact lt_irrefl _⟩

/-- Claim C2 as amended: the score is strictly monotone in each of the five
weighted engagement types (comments, reposts, quotes, likes, views) — an
increase in at least one of them with no decrease elsewhere strictly raises
the score at fixed creation time — it is monotone in recency (equal
engagement, later `created_at` gives a score at least as large), and it is
invariant in `bookmarks`. -/
theorem score_monotone (a b : Stats) (t t' : ℝ)
    (hc : a.comments ≤ b.comments) (hr : a.reposts ≤ b.reposts)
    (hq : a.quotes ≤ b.quotes) (hl : a.likes ≤ b.likes) (hv : a.views ≤ b.views)
    (hstrict : a.comments < b.comments ∨ a.reposts < b.reposts ∨ a.quotes < b.quotes
      ∨ a.likes < b.likes ∨ a.views < b.views)
    (ht : t ≤ t') :
    calculateScore a t < calculateScore b t
    ∧ calculateScore a t ≤ calculateScore a t'
    ∧ (∀ n : ℕ, calculateScore { a with bookmarks := n } t = calculateScore a t) := by
  have hcast : ∀ x y : ℕ, x ≤ y → (x : ℝ) ≤ (y : ℝ) := fun x y h => Nat.cast_le.mpr h
  have hwlt : ((a.comments : ℝ) + a.reposts + a.quotes) * 5 + (a.likes : ℝ) * 2
      + (a.views : ℝ) * 0.5
      < ((b.comments : ℝ) + b.reposts + b.quotes) * 5 + (b.likes : ℝ) * 2
      + (b.views : ℝ) * 0.5 := by
    have h1 := hcast _ _ hc
    have h2 := hcast _ _ hr
    have h3 := hcast _ _ hq
    have h4 := hcast _ _ hl
    have h5 := hcast _ _ hv
    rcases hstrict with h | h | h | h | h
    all_goals
      have hlt := (@Nat.cast_lt ℝ _ _ _).mpr h
      nlinarith
  refine ⟨?_, ?_, fun n => rfl⟩
  · have hlog : Real.log (1 + ((a.comments : ℝ) + a.reposts + a.quotes) * 5
        + (a.likes : ℝ) * 2 + (a.views : ℝ) * 0.5)
        < Real.log (1 + ((b.comments : ℝ) + b.reposts + b.quotes) * 5
        + (b.likes : ℝ) * 2 + (b.views : ℝ) * 0.5) := by
      apply Real.log_lt_log (by positivity)
      linarith
    simp only [calculateScore, scoresGetter]
    exact add_lt_add_left (mul_lt_mul_of_pos_right hlog (by norm_num)) t
  · simp only [calculateScore, scoresGetter]
    exact add_le_add_right ht _

/-- Witness for C2: `score_monotone` applied to two concrete posts (one extra
comment) at creation times 0 and 1. -/
theorem score_monotone_witness :
    calculateScore ⟨0, 0, 0, 0, 0, 0⟩ 0 < calculateScore ⟨1, 0, 0, 0, 0, 0⟩ 0
    ∧ calculateScore ⟨0, 0, 0, 0, 0, 0⟩ 0 ≤ calculateScore ⟨0, 0, 0, 0, 0, 0⟩ 1 := by
  have h := score_monotone ⟨0, 0, 0, 0, 0, 0⟩ ⟨1, 0, 0, 0, 0, 0⟩ 0 1
    (by decide) (by decide) (by decide) (by decide) (by decide)
    (Or.inl (by decide)) zero_le_one
  exact ⟨h.1, h.2.1⟩

end Kronk
